import Mathlib

/- Verification of the Malicious-URL-Scanner storage engine and its client-side
   probabilistic filter.

   Keys are byte strings (`List Nat`) ordered lexicographically, which matches
   Python `bytes` comparison.  The memtable of
   `src/server/server_core/memtable.py` is a red-black tree whose nodes carry
   mutable parent pointers; a well-formed tree with parent pointers is exactly a
   pure tree together with the path from the root to the node the code's local
   variable points at, so the embedding represents the Python `node` variable as
   a focused subtree plus a list of `Frame`s (the ancestors), and each in-place
   mutation of the source becomes the corresponding rewriting of the focus and
   frames.  Python exceptions (the undefined-variable `NameError` in
   `node_successor`, `AttributeError` from dereferencing `None`, `IndexError`
   from list indexing) are modelled with `Except PyErr`. -/

deriving instance DecidableEq for Except

/-- Python exceptions the embedded code can raise. -/
inductive PyErr where
  | nameError : PyErr
  | attributeError : PyErr
  | indexError : PyErr
  | fuelExhausted : PyErr
deriving DecidableEq

/-- Binary tree with a red bit, the functional view of `memtable.py`'s `Node`
objects; `nil` stands for the shared `MemTable.NIL` sentinel. -/
inductive RBTree (α : Type) where
  | nil : RBTree α
  | node (red : Bool) (key : α) (left : RBTree α) (right : RBTree α) : RBTree α
deriving DecidableEq

/-- Reading `.red` through the sentinel: `MemTable.NIL` has `red = False`. -/
def RBTree.redOf {α : Type} : RBTree α → Bool
  | .nil => false
  | .node r _ _ _ => r

/-- Writing `.red = False` on a node (`self.root.red = False` etc.). -/
def RBTree.setBlack {α : Type} : RBTree α → RBTree α
  | .nil => .nil
  | .node _ k l r => .node false k l r

/-- In-order traversal of keys, the sequence `__iter__` / `in_order` of
`memtable.py` yields. -/
def RBTree.inorder {α : Type} : RBTree α → List α
  | .nil => []
  | .node _ k l r => RBTree.inorder l ++ k :: RBTree.inorder r

/-- Which child of its parent the focused node is. -/
inductive Dir where
  | L : Dir
  | R : Dir
deriving DecidableEq

/-- One ancestor on the path from the root to the focused node: the side the
focus hangs on, the ancestor's colour and key, and the sibling subtree. -/
structure Frame (α : Type) where
  dir : Dir
  red : Bool
  key : α
  sib : RBTree α
deriving DecidableEq

/-- Rebuild the parent node from the focused subtree and one frame. -/
def plugF {α : Type} (t : RBTree α) (f : Frame α) : RBTree α :=
  match f.dir with
  | .L => .node f.red f.key t f.sib
  | .R => .node f.red f.key f.sib t

/-- Rebuild the whole tree from a focused subtree and its ancestor path
(innermost frame first). -/
def plug {α : Type} : RBTree α → List (Frame α) → RBTree α
  | t, [] => t
  | t, f :: rest => plug (plugF t f) rest

/-- Keys lying strictly to the left of the focus in the rebuilt tree. -/
def ctxL {α : Type} : List (Frame α) → List α
  | [] => []
  | ⟨.L, _, _, _⟩ :: rest => ctxL rest
  | ⟨.R, _, k, s⟩ :: rest => ctxL rest ++ RBTree.inorder s ++ [k]

/-- Keys lying strictly to the right of the focus in the rebuilt tree. -/
def ctxR {α : Type} : List (Frame α) → List α
  | [] => []
  | ⟨.L, _, k, s⟩ :: rest => k :: RBTree.inorder s ++ ctxR rest
  | ⟨.R, _, _, _⟩ :: rest => ctxR rest

/-- Descent phase of `MemTable.insert` (memtable.py lines 32-46): walk down
comparing keys, caching the ancestors; `none` when the key is already present
(the `return False` branch), otherwise the ancestor path of the `NIL` position
where `new_node` is attached. -/
def descend {α : Type} [LinearOrder α] : RBTree α → α → List (Frame α) → Option (List (Frame α))
  | .nil, _, acc => some acc
  | .node r x l rt, k, acc =>
    if k = x then none
    else if k < x then descend l k (⟨.L, r, x, rt⟩ :: acc)
    else descend rt k (⟨.R, r, x, l⟩ :: acc)

/-- The `fix_insert` loop of memtable.py (lines 53-94).  The loop runs while
`node is not self.root and node.parent.red`; its body reads
`node.parent.parent`, which is `None` when the parent is the root
(`AttributeError`).  Case 1 recolours and moves the focus to the grandparent;
case 2 performs the rotations `left_rotate`/`right_rotate` (lines 239-274) at
the cached parent/grandparent and re-enters the loop.  On exit the root is
recoloured black (`self.root.red = False`). -/
def fixInsertGo {α : Type} : Nat → RBTree α → List (Frame α) → Except PyErr (RBTree α)
  | 0, _, _ => .error .fuelExhausted
  | _ + 1, t, [] => .ok (RBTree.setBlack t)
  | _ + 1, t, ⟨fd, false, fk, fs⟩ :: rest =>
    .ok (RBTree.setBlack (plug t (⟨fd, false, fk, fs⟩ :: rest)))
  | _ + 1, _, ⟨_, true, _, _⟩ :: [] => .error .attributeError
  | fuel + 1, t, ⟨fd, true, fk, fs⟩ :: ⟨.L, gr, gk, gs⟩ :: rest2 =>
    -- parent (red) is a left child; uncle is grandparent.right = gs
    if gs.redOf then
      -- CASE 1: recolour parent and uncle black, grandparent red; node = grandparent
      fixInsertGo fuel (plugF (plugF t ⟨fd, false, fk, fs⟩) ⟨.L, true, gk, gs.setBlack⟩) rest2
    else
      match fd, t with
      | .L, t =>
        -- CASE 2 outer: right_rotate(grandparent); recolour
        fixInsertGo fuel t (⟨.L, gr, fk, .node true gk fs gs⟩ :: rest2)
      | .R, .nil => .error .attributeError
      | .R, .node _ tk tl trt =>
        -- CASE 2 inner: node = node.parent; left_rotate(node); right_rotate(grandparent)
        fixInsertGo fuel (.node true fk fs tl) (⟨.L, gr, tk, .node true gk trt gs⟩ :: rest2)
  | fuel + 1, t, ⟨fd, true, fk, fs⟩ :: ⟨.R, gr, gk, gs⟩ :: rest2 =>
    -- parent (red) is a right child; uncle is grandparent.left = gs
    if gs.redOf then
      fixInsertGo fuel (plugF (plugF t ⟨fd, false, fk, fs⟩) ⟨.R, true, gk, gs.setBlack⟩) rest2
    else
      match fd, t with
      | .R, t =>
        -- CASE 2 outer: left_rotate(grandparent); recolour
        fixInsertGo fuel t (⟨.R, gr, fk, .node true gk gs fs⟩ :: rest2)
      | .L, .nil => .error .attributeError
      | .L, .node _ tk tl trt =>
        -- CASE 2 inner: node = node.parent; right_rotate(node); left_rotate(grandparent)
        fixInsertGo fuel (.node true fk trt fs) (⟨.R, gr, tk, .node true gk gs tl⟩ :: rest2)

/-- Entry point for the loop: every iteration shortens the ancestor path, so
`ctx.length + 1` steps always suffice (proved in `fixInsertGo_ok`); the fuel
only makes the recursion structural. -/
def fixInsert {α : Type} (t : RBTree α) (ctx : List (Frame α)) : Except PyErr (RBTree α) :=
  fixInsertGo (ctx.length + 1) t ctx

/-- The in-memory write buffer: tree plus the `elements` counter. -/
structure MemTable (α : Type) where
  root : RBTree α
  elements : Nat
deriving DecidableEq

/-- The empty memtable produced by `MemTable.__init__`. -/
def MemTable.empty {α : Type} : MemTable α := ⟨.nil, 0⟩

/-- `MemTable.insert` (memtable.py lines 25-50): an empty table gets a black
root and no fix-up; otherwise descend, return `False` on a duplicate, else
attach a red leaf and run `fix_insert`, incrementing `elements`. -/
def MemTable.insert {α : Type} [LinearOrder α] (m : MemTable α) (k : α) :
    Except PyErr (Bool × MemTable α) :=
  if m.elements = 0 then .ok (true, ⟨.node false k .nil .nil, 1⟩)
  else
    match descend m.root k [] with
    | none => .ok (false, m)
    | some ctx =>
      (fixInsert (.node true k .nil .nil) ctx).map (fun t => (true, ⟨t, m.elements + 1⟩))

/-- `MemTable.get` (memtable.py lines 97-103): standard BST search. -/
def RBTree.get {α : Type} [LinearOrder α] : RBTree α → α → Option α
  | .nil, _ => none
  | .node _ x l r, k => if k = x then some x else if k < x then RBTree.get l k else RBTree.get r k

/-- `__contains__`: `self.get(key) is not None`. -/
def MemTable.mem {α : Type} [LinearOrder α] (m : MemTable α) (k : α) : Bool :=
  (m.root.get k).isSome

/-- `range_lookup_traverse` (memtable.py lines 225-234): visit the left child
when `node.key > lower_bound`, emit the key when it is inside the inclusive
bounds, visit the right child when `node.key < upper_bound`; the shared
`results` buffer receives the keys in exactly this concatenation order. -/
def rangeLookupTraverse {α : Type} [LinearOrder α] : RBTree α → α → α → List α
  | .nil, _, _ => []
  | .node _ x l r, lo, hi =>
    (if lo < x then rangeLookupTraverse l lo hi else [])
      ++ (if lo ≤ x ∧ x ≤ hi then [x] else [])
      ++ (if x < hi then rangeLookupTraverse r lo hi else [])

/-- `MemTable.range_lookup` (memtable.py lines 220-223). -/
def MemTable.range_lookup {α : Type} [LinearOrder α] (m : MemTable α) (lo hi : α) : List α :=
  rangeLookupTraverse m.root lo hi

/-- In-order key list of a memtable (`in_order` / `__iter__`). -/
def MemTable.in_order {α : Type} (m : MemTable α) : List α :=
  m.root.inorder

/-- Search loop of `MemTable.remove` (memtable.py lines 106-114), returning the
found node as focus-plus-path. -/
def findNode {α : Type} [LinearOrder α] :
    RBTree α → α → List (Frame α) → Option (RBTree α × List (Frame α))
  | .nil, _, _ => none
  | .node r x l rt, k, acc =>
    if k = x then some (.node r x l rt, acc)
    else if k < x then findNode l k (⟨.L, r, x, rt⟩ :: acc)
    else findNode rt k (⟨.R, r, x, l⟩ :: acc)

/-- `fix_double_black` (memtable.py lines 149-217), fuelled because the Python
`while True` loop both climbs toward the root and grows the path again after
rotations.  Each branch transcribes the corresponding source case, including
the rotations the source performs (note lines 188 and 204 rotate the parent
toward the double-black node itself). -/
def fixDoubleBlack {α : Type} : Nat → RBTree α → List (Frame α) → Except PyErr (RBTree α)
  | 0, _, _ => .error .fuelExhausted
  | fuel + 1, t, ctx =>
    match ctx with
    | [] => .ok t
    | f :: rest =>
      match f.sib with
      | .nil => .error .attributeError
      | .node sr sk sl srt =>
        if sr then
          -- sibling is RED: parent.red = True; sibling.red = False; rotate at parent
          match f.dir with
          | .L => fixDoubleBlack fuel t (⟨.L, true, f.key, sl⟩ :: ⟨.L, false, sk, srt⟩ :: rest)
          | .R => fixDoubleBlack fuel t (⟨.R, true, f.key, srt⟩ :: ⟨.R, false, sk, sl⟩ :: rest)
        else if sl.redOf then
          if srt.redOf then
            -- black sibling, both children red: recolour and rotate at parent
            match f.dir with
            | .L =>
              fixDoubleBlack fuel t
                (⟨.L, false, f.key, sl.setBlack⟩ :: ⟨.L, f.red, sk, srt.setBlack⟩ :: rest)
            | .R =>
              fixDoubleBlack fuel t
                (⟨.R, false, f.key, srt.setBlack⟩ :: ⟨.R, f.red, sk, sl.setBlack⟩ :: rest)
          else
            match f.dir with
            | .L =>
              -- only sibling.left red, near: sibling.red = True; sibling.left.red = False;
              -- right_rotate(sibling); loop again
              match sl with
              | .nil => .error .attributeError
              | .node _ slk sll slr =>
                fixDoubleBlack fuel t
                  (⟨.L, f.red, f.key, .node false slk sll (.node true sk slr srt)⟩ :: rest)
            | .R =>
              -- only sibling.left red, far: recolour; the source then calls
              -- left_rotate(parent), lifting the double-black node itself; return
              match t with
              | .nil => .error .attributeError
              | .node tr tk tl trt =>
                .ok (plug (.node tr tk
                  (.node false f.key (.node f.red sk sl.setBlack srt) tl) trt) rest)
        else if srt.redOf then
          match f.dir with
          | .R =>
            -- only sibling.right red, near: sibling.red = True; sibling.right.red = False;
            -- left_rotate(sibling); loop again
            match srt with
            | .nil => .error .attributeError
            | .node _ srk srl srr =>
              fixDoubleBlack fuel t
                (⟨.R, f.red, f.key, .node false srk (.node true sk sl srl) srr⟩ :: rest)
          | .L =>
            -- only sibling.right red, far: recolour; the source then calls
            -- right_rotate(parent), lifting the double-black node itself; return
            match t with
            | .nil => .error .attributeError
            | .node tr tk tl trt =>
              .ok (plug (.node tr tk tl
                (.node false f.key trt (.node f.red sk sl (srt.setBlack)))) rest)
        else
          -- black sibling with black children: sibling.red = True; delete the node
          -- if it is a leaf; absorb at the parent or climb
          let t2 : RBTree α :=
            match t with
            | .node _ _ .nil .nil => .nil
            | t => t
          let sib2 : RBTree α := .node true sk sl srt
          if f.red then .ok (plug t2 (⟨f.dir, false, f.key, sib2⟩ :: rest))
          else fixDoubleBlack fuel (plugF t2 ⟨f.dir, false, f.key, sib2⟩) rest

/-- `fix_remove` (memtable.py lines 122-146) acting on the found node.  With
two non-NIL children the source calls `node_successor` (lines 277-281): that
helper steps to `node.right` and, whenever that child has a non-NIL left child,
executes `current = current.left` with `current` never defined — a `NameError`;
otherwise it returns `node.right`, whose key is copied up before the loop
re-runs on it.  With at most one non-NIL child the node is deleted directly or
handed to `fix_double_black`. -/
def fixRemove {α : Type} (fuel : Nat) : RBTree α → List (Frame α) → Except PyErr (RBTree α)
  | .nil, _ => .error .attributeError
  | .node r k l rt, ctx =>
    match l, rt with
    | .node _ _ _ _, .node _ rk rl _ =>
      match rl with
      | .node _ _ _ _ => .error .nameError
      | .nil => fixRemove fuel rt (⟨.R, r, rk, l⟩ :: ctx)
    | .nil, .nil =>
      if r then
        match ctx with
        | [] => .error .attributeError
        | _ :: _ => .ok (plug .nil ctx)
      else fixDoubleBlack fuel (.node r k .nil .nil) ctx
    | .node _ lk _ _, .nil => .ok (plug (.node r lk .nil .nil) ctx)
    | .nil, .node _ rk _ _ => .ok (plug (.node r rk .nil .nil) ctx)

/-- `MemTable.remove` (memtable.py lines 106-119). -/
def MemTable.remove {α : Type} [LinearOrder α] (m : MemTable α) (k : α) :
    Except PyErr (Bool × MemTable α) :=
  match findNode m.root k [] with
  | none => .ok (false, m)
  | some (t, ctx) =>
    (fixRemove (2 * m.elements + 16) t ctx).map (fun t2 => (true, ⟨t2, m.elements - 1⟩))

/-- Insert a list of keys left to right, the way a sequence of
`submit-malicious-url` calls or a WAL replay feeds the memtable. -/
def insertAll {α : Type} [LinearOrder α] (ks : List α) : Except PyErr (MemTable α) :=
  ks.foldlM (fun m k => (m.insert k).map Prod.snd) MemTable.empty

/-- Raw byte strings; Python `bytes` comparison is this lexicographic order. -/
abbrev Bytes := List Nat

/-- Modelled from the spec: `constants.py` is imported by every server and
client module but is missing from the sources.  Section 3 of the specification
fixes the key width (32 bytes), the prefix width (4 bytes), `P = 4` partitions,
`N = 15625` hashes per index file, the routing function
`partition(key) = key[0] * P / 256`, and section 8 the filter's target
false-positive rate `p = 0.01`.  `SConsts` keeps `N`, `P` and the router as
parameters so small instances can be evaluated. -/
structure SConsts where
  HASHES_PER_IDX : Nat
  PARTITIONS : Nat
  PARTITION_NUM : Nat → Nat

/-- Modelled from the spec: the default constants (N = 15625, P = 4,
`partition(key) = key[0] * P / 256`). -/
def specConsts : SConsts := ⟨15625, 4, fun b => b * 4 / 256⟩

/-- Modelled from the spec: `c.HASH_SIZE = 32`. -/
def HASH_SIZE : Nat := 32

/-- Modelled from the spec: `c.PREFIX_SIZE = 4`. -/
def PREFIX_SIZE : Nat := 4

/-- Modelled from the spec: `c.BF_FP_PROBABILITY = 0.01`. -/
noncomputable def BF_FP_PROBABILITY : ℝ := 1 / 100

/-- Successive `mm[offset:offset + c.HASH_SIZE]` slices for
`offset in range(0, len(mm), c.HASH_SIZE)`: when the length is not a multiple
of 32 the last slice is the short trailing remainder. -/
def walSlicesGo : Nat → List Nat → List (List Nat)
  | 0, _ => []
  | fuel + 1, wal =>
    if wal = [] then [] else wal.take HASH_SIZE :: walSlicesGo fuel (wal.drop HASH_SIZE)

/-- Each loop iteration drops 32 bytes, so `wal.length` iterations always
suffice; the fuel only makes the recursion structural. -/
def walSlices (wal : List Nat) : List (List Nat) :=
  walSlicesGo wal.length wal

/-- `build_memtable_from_WAL` (idx_reader.py lines 8-20): an empty WAL gives an
empty memtable, otherwise every 32-byte slice (including a short trailing one)
is inserted. -/
def build_memtable_from_WAL (wal : List Nat) : Except PyErr (MemTable Bytes) :=
  if wal.length = 0 then .ok MemTable.empty
  else (walSlices wal).foldlM (fun m c => (m.insert c).map Prod.snd) MemTable.empty

/-- Lower binary search of `IndexReader.range_lookup` (idx_reader.py lines
40-49): `while low < high: mid = (low + high) >> 1; if lower_bound >
data[mid*32 : mid*32+32]: low = mid + 1 else: high = mid`.  Every probed index
satisfies `mid ≤ high`, so for a file holding the assumed number of keys the
access is in bounds and the `getD` default is never used. -/
def bsearchLowGo {α : Type} [LinearOrder α] (ks : List α) (lb : α) :
    Nat → Nat → Nat → Nat
  | 0, low, _ => low
  | fuel + 1, low, high =>
    if low < high then
      let mid := (low + high) / 2
      if ks.getD mid lb < lb then bsearchLowGo ks lb fuel (mid + 1) high
      else bsearchLowGo ks lb fuel low mid
    else low

/-- The window shrinks every iteration, so `high - low` iterations always
suffice; the fuel only makes the recursion structural. -/
def bsearchLow {α : Type} [LinearOrder α] (ks : List α) (lb : α) (low high : Nat) : Nat :=
  bsearchLowGo ks lb (high - low) low high

/-- Upper binary search of `IndexReader.range_lookup` (idx_reader.py lines
51-60): `if upper_bound >= data[...]: low = mid + 1 else: high = mid`. -/
def bsearchHighGo {α : Type} [LinearOrder α] (ks : List α) (ub : α) :
    Nat → Nat → Nat → Nat
  | 0, low, _ => low
  | fuel + 1, low, high =>
    if low < high then
      let mid := (low + high) / 2
      if ks.getD mid ub ≤ ub then bsearchHighGo ks ub fuel (mid + 1) high
      else bsearchHighGo ks ub fuel low mid
    else low

/-- Fuelled entry point, as for `bsearchLow`. -/
def bsearchHigh {α : Type} [LinearOrder α] (ks : List α) (ub : α) (low high : Nat) : Nat :=
  bsearchHighGo ks ub (high - low) low high

/-- `IndexReader.range_lookup` (idx_reader.py lines 28-66): for each
consecutively numbered index file (modelled as its list of keys), run the two
binary searches over index range `[0, n-1]` with `n = c.HASHES_PER_IDX`, then
emit the slice `data[lower_index*32 : upper_index*32]`, concatenated across
files. -/
def IndexReader.range_lookup {α : Type} [LinearOrder α] (n : Nat) (files : List (List α))
    (lo hi : α) : List α :=
  files.flatMap (fun ks =>
    ((ks.take (bsearchHigh ks hi 0 (n - 1))).drop (bsearchLow ks lo 0 (n - 1))))

/-- Per-file search loop of `IndexReader.contains_hash` (idx_reader.py lines
80-88): `low, high = 0, hashes_per_idx - 1; while low <= high: ...` with
`high = mid - 1` allowed to pass below zero, hence `Int` bounds. -/
def bsearchContainsGo {α : Type} [LinearOrder α] (ks : List α) (key : α) :
    Nat → Int → Int → Bool
  | 0, _, _ => false
  | fuel + 1, low, high =>
    if low ≤ high then
      let mid := (low + high) / 2
      let h := ks.getD mid.toNat key
      if key = h then true
      else if key < h then bsearchContainsGo ks key fuel low (mid - 1)
      else bsearchContainsGo ks key fuel (mid + 1) high
    else false

/-- Fuelled entry point: the window `[low, high]` shrinks every iteration, so
`high + 1 - low` iterations always suffice. -/
def bsearchContains {α : Type} [LinearOrder α] (ks : List α) (key : α) (low high : Int) :
    Bool :=
  bsearchContainsGo ks key (high + 1 - low).toNat low high

/-- `IndexReader.contains_hash` (idx_reader.py lines 69-93): binary search in
each index file of the partition directory, OR across files. -/
def IndexReader.contains_hash {α : Type} [LinearOrder α] (n : Nat) (files : List (List α))
    (key : α) : Bool :=
  files.any (fun ks => bsearchContains ks key 0 ((n : Int) - 1))

/-- `IndexReader.get_all_hash_prefixes` (idx_reader.py lines 96-108): the first
4 bytes of every 32-byte record of every index file, in file order. -/
def IndexReader.get_all_hash_prefixes (files : List (List Bytes)) : List Nat :=
  files.flatMap (fun ks => ks.flatMap (fun k => k.take PREFIX_SIZE))

/-- `IndexReader.get_idx_file_amount` (idx_reader.py lines 111-118): index
files are numbered consecutively from 1, so the count is the directory list
length. -/
def IndexReader.get_idx_file_amount (files : List (List Bytes)) : Nat :=
  files.length

/-- The client's Bloom filter state (bloomfilter.py): the bit array and the
per-key hash count. -/
structure BloomFilter where
  hash_count : Nat
  bit_array : List Bool
deriving DecidableEq

/-- `BloomFilter.get_digest` (bloomfilter.py lines 45-46):
`(mmh3.hash(key, seed=seed) & 0xFFFFFFFF) % len(self.bit_array)`.  `mmh3` is a
third-party C extension, so the hash itself is an oracle parameter; `& 0xFFFFFFFF`
on a Python int is reduction mod 2^32. -/
def BloomFilter.get_digest (mmh3hash : Bytes → Nat → Int) (bf : BloomFilter) (key : Bytes)
    (seed : Nat) : Nat :=
  ((mmh3hash key seed) % 4294967296).toNat % bf.bit_array.length

/-- `BloomFilter.add` (bloomfilter.py lines 24-29): set the `hash_count` bits;
`List.set` keeps the length, so each digest is the one the source computes. -/
def BloomFilter.add (mmh3hash : Bytes → Nat → Int) (bf : BloomFilter) (key : Bytes) :
    BloomFilter :=
  { bf with
    bit_array := (List.range bf.hash_count).foldl
      (fun arr i => arr.set (bf.get_digest mmh3hash key i) true) bf.bit_array }

/-- `BloomFilter.check` (bloomfilter.py lines 32-40): true iff every one of the
`hash_count` probed bits is set. -/
def BloomFilter.check (mmh3hash : Bytes → Nat → Int) (bf : BloomFilter) (key : Bytes) :
    Bool :=
  (List.range bf.hash_count).all (fun i => bf.bit_array.getD (bf.get_digest mmh3hash key i) false)

/-- Python `int()` on a float: truncation toward zero (floats idealised as
reals). -/
noncomputable def pyInt (x : ℝ) : ℤ :=
  if 0 ≤ x then ⌊x⌋ else -⌊-x⌋

/-- The float `bitarray_size` of `BloomFilter.__init__` (bloomfilter.py line
12): `-((entry_count+24) * math.log(c.BF_FP_PROBABILITY)) / (math.log(2)**2)`,
idealising binary64 arithmetic as real arithmetic. -/
noncomputable def BloomFilter.bitarray_size (entry_count : ℕ) : ℝ :=
  -((entry_count + 24) * Real.log BF_FP_PROBABILITY) / (Real.log 2) ^ 2

/-- `self.hash_count` as initialised on line 15:
`max(1, int((bitarray_size/entry_count) * math.log(2)))` — note it uses the
un-truncated float `bitarray_size`, not the constructed array length. -/
noncomputable def BloomFilter.init_hash_count (entry_count : ℕ) : ℤ :=
  max 1 (pyInt (BloomFilter.bitarray_size entry_count / entry_count * Real.log 2))

/-- The constructed bit array length, line 18: `bitarray(int(bitarray_size))`. -/
noncomputable def BloomFilter.init_array_len (entry_count : ℕ) : ℤ :=
  pyInt (BloomFilter.bitarray_size entry_count)

/-- Python list indexing: negative indices count from the end, anything outside
`[-len, len)` raises `IndexError`. -/
def pyListIdx {β : Type} (l : List β) (i : Int) : Except PyErr β :=
  let j := if i < 0 then i + l.length else i
  if h2 : 0 ≤ j ∧ j.toNat < l.length then .ok (l.get ⟨j.toNat, h2.2⟩) else .error .indexError

/-- HTTP outcomes the handlers produce: a FastAPI handler that returns
normally yields status 200; `Response(..., status_code=400)` yields a 400 with
its body; an uncaught Python exception aborts the handler (HTTP 500), which the
embedding reports as the `Except` error. -/
inductive HttpResp where
  | ok200 : HttpResp
  | bad400 (body : String) : HttpResp
deriving DecidableEq

/-- Engine state behind the endpoints.  `idxDirs d` is the contents of
directory `partition{d}` as the list of its consecutively numbered index files
(each a list of 32-byte keys); `memtables` is `app.state.memtables` (index
`0..P-1`, loaded at startup from WAL files `partition{1..P}.bin`); `walFiles d`
is the record list of `write_ahead/partition{d}.bin`. -/
structure ServerState where
  idxDirs : Nat → List (List Bytes)
  memtables : List (MemTable Bytes)
  walFiles : Nat → List Bytes

/-- `submit_malicious_url` (server_main.py lines 103-154).  The partition is
`c.PARTITION_NUM(url_hash[0])` (0-based); `idx_readers[partition]` was built as
`IndexReader(partition + 1)`, so the duplicate check reads directory
`partition{partition+1}`, while the WAL path and `flush_to_idx` use the 0-based
number directly.  On flush, `flush_to_idx` (idx_builder.py lines 11-26) writes
the whole in-order iteration of the memtable to the next free `idx_NNN.bin` and
the WAL is truncated (`open(wal_path, "w")`); the handler never clears the
memtable.  Without a flush the key is appended to the WAL.  Returning without a
`Response` is HTTP 200. -/
def submit_malicious_url (C : SConsts) (s : ServerState) (url_hash : Bytes) :
    Except PyErr (HttpResp × ServerState) := do
  let part := C.PARTITION_NUM (url_hash.headD 0)
  if IndexReader.contains_hash C.HASHES_PER_IDX (s.idxDirs (part + 1)) url_hash then
    pure (.bad400 "Bad request: URL is already blacklisted", s)
  else do
    let memtable ← pyListIdx s.memtables (part : Int)
    if memtable.mem url_hash then
      pure (.bad400 "Bad request: URL is already blacklisted", s)
    else do
      let r ← memtable.insert url_hash
      let mt2 := r.2
      let s1 : ServerState := { s with memtables := s.memtables.set part mt2 }
      if C.HASHES_PER_IDX ≤ mt2.elements then
        let s2 : ServerState := { s1 with
          idxDirs := fun d => if d = part then s1.idxDirs d ++ [mt2.in_order] else s1.idxDirs d }
        pure (.ok200, { s2 with
          walFiles := fun d => if d = part then [] else s2.walFiles d })
      else
        pure (.ok200, { s1 with
          walFiles := fun d => if d = part then s1.walFiles d ++ [url_hash] else s1.walFiles d })

/-- `get_memtable_hash_prefixes` (server_main.py lines 157-174): no validation
of `partition`; the handler reads `memtables[partition-1]` with Python list
indexing and streams `url_hash[:4]` for every key in iteration order. -/
def get_memtable_hash_prefixes (s : ServerState) (partition : Int) :
    Except PyErr (List Nat) := do
  let mt ← pyListIdx s.memtables (partition - 1)
  pure (mt.in_order.flatMap (fun h => h.take PREFIX_SIZE))

/-- `get_idx_hash_prefixes` (server_main.py lines 177-192): reads
`idx_readers[partition-1]`, again with Python list indexing over the readers
`[IndexReader(1), ..., IndexReader(P)]`. -/
def get_idx_hash_prefixes (C : SConsts) (s : ServerState) (partition : Int) :
    Except PyErr (List Nat) := do
  let dirNum ← pyListIdx (List.range' 1 C.PARTITIONS) (partition - 1)
  pure (IndexReader.get_all_hash_prefixes (s.idxDirs dirNum))

/-- BST property: at every node the left keys are smaller and the right keys
larger. -/
def BST {α : Type} [LinearOrder α] : RBTree α → Prop
  | .nil => True
  | .node _ k l r =>
    (∀ x ∈ l.inorder, x < k) ∧ (∀ x ∈ r.inorder, k < x) ∧ BST l ∧ BST r

/-- The bottom frame of a path (the root of the rebuilt tree) is black.  This
is what keeps `fix_insert` from dereferencing `node.parent.parent` when the
parent is root: a red parent is then never the root. -/
def RootOK {α : Type} (ctx : List (Frame α)) : Prop :=
  ∀ f, ctx.getLast? = some f → f.red = false

/-- Invariant of every reachable memtable: sorted in-order list, black root,
and accurate `elements` counter. -/
def MTInv {α : Type} [LinearOrder α] (m : MemTable α) : Prop :=
  m.root.inorder.Sorted (· < ·) ∧ m.root.redOf = false ∧
    m.elements = m.root.inorder.length

/-- A partition directory is well formed for constants `C` when every index
file holds exactly `C.HASHES_PER_IDX` strictly increasing keys (the on-disk
contract of section 4.2). -/
def DirWF {α : Type} [LinearOrder α] (n : Nat) (files : List (List α)) : Prop :=
  ∀ ks ∈ files, ks.length = n ∧ ks.Sorted (· < ·)

/-- Small-N constants used to evaluate the ingest path concretely: two hashes
per index file, same routing as the spec default. -/
def toyConsts : SConsts := ⟨2, 4, fun b => b * 4 / 256⟩

/-- Three distinct 32-byte keys whose first byte is 0, all routed to internal
partition 0. -/
def keyA : Bytes := 0 :: List.replicate 31 0
def keyB : Bytes := 0 :: List.replicate 31 1
def keyC : Bytes := 0 :: List.replicate 31 2

/-- A freshly started server: empty directories, four empty memtables, empty
WAL files. -/
def serverStart : ServerState :=
  ⟨fun _ => [], List.replicate 4 MemTable.empty, fun _ => []⟩

/-- Ingest `N + 1 = 3` distinct keys of one partition under `toyConsts`,
keeping the three HTTP responses and the final state. -/
def c1Run : Except PyErr ((HttpResp × HttpResp × HttpResp) × ServerState) := do
  let (r1, s1) ← submit_malicious_url toyConsts serverStart keyA
  let (r2, s2) ← submit_malicious_url toyConsts s1 keyB
  let (r3, s3) ← submit_malicious_url toyConsts s2 keyC
  pure ((r1, r2, r3), s3)

/-- A 32-byte key of sevens and one of nines, for the partition endpoints. -/
def key7 : Bytes := List.replicate 32 7
def key9 : Bytes := List.replicate 32 9

/-- A server whose last partition (internal 3, external 4) holds `key7` in its
memtable, and whose directory `partition4` holds one index file `[key9]`. -/
def serverC9 : ServerState :=
  ⟨fun d => if d = 4 then [[key9]] else [],
   [MemTable.empty, MemTable.empty, MemTable.empty, ⟨.node false key7 .nil .nil, 1⟩],
   fun _ => []⟩

theorem RBTree.inorder_setBlack {α : Type} (t : RBTree α) : t.setBlack.inorder = t.inorder := by
  cases t <;> rfl

theorem RBTree.redOf_setBlack {α : Type} (t : RBTree α) : t.setBlack.redOf = false := by
  cases t <;> rfl

theorem plugF_ne_nil {α : Type} (t : RBTree α) (f : Frame α) : plugF t f ≠ .nil := by
  obtain ⟨d, r, k, s⟩ := f
  cases d <;> simp [plugF]

theorem plug_ne_nil {α : Type} (ctx : List (Frame α)) (t : RBTree α) (h : t ≠ .nil) :
    plug t ctx ≠ .nil := by
  induction ctx generalizing t with
  | nil => exact h
  | cons f rest ih => exact ih _ (plugF_ne_nil t f)

theorem inorder_plug {α : Type} (ctx : List (Frame α)) (t : RBTree α) :
    (plug t ctx).inorder = ctxL ctx ++ t.inorder ++ ctxR ctx := by
  induction ctx generalizing t with
  | nil => simp [plug, ctxL, ctxR]
  | cons f rest ih =>
    obtain ⟨d, r, k, s⟩ := f
    cases d <;>
      simp [plug, plugF, ih, ctxL, ctxR, RBTree.inorder, List.append_assoc]

theorem rootOK_tail {α : Type} {f : Frame α} {l : List (Frame α)} (h : RootOK (f :: l)) :
    RootOK l := by
  cases l with
  | nil => intro x hx; simp at hx
  | cons g m =>
    intro x hx
    exact h x (by simpa [List.getLast?_cons_cons] using hx)

theorem rootOK_swap {α : Type} {f g : Frame α} {l : List (Frame α)} (h : RootOK (f :: g :: l))
    (d : Dir) (k : α) (s : RBTree α) : RootOK (⟨d, g.red, k, s⟩ :: l) := by
  cases l with
  | nil =>
    intro x hx
    have hg : g.red = false := h g (by simp [List.getLast?_cons_cons])
    simp only [List.getLast?_singleton, Option.some.injEq] at hx
    rw [← hx]
    exact hg
  | cons c m =>
    intro x hx
    exact h x (by simpa [List.getLast?_cons_cons] using hx)

theorem fixInsertGo_ok {α : Type} : ∀ (fuel : Nat) (t : RBTree α) (ctx : List (Frame α)),
    ctx.length < fuel → RootOK ctx → t ≠ .nil →
    ∃ u, fixInsertGo fuel t ctx = .ok u ∧
      u.inorder = ctxL ctx ++ t.inorder ++ ctxR ctx ∧ u.redOf = false := by
  intro fuel t ctx
  induction fuel, t, ctx using fixInsertGo.induct with
  | case1 t ctx =>
    intro hlen _ _
    omega
  | case2 fuel t =>
    intro _ _ _
    exact ⟨t.setBlack, rfl,
      by simp [ctxL, ctxR, RBTree.inorder_setBlack], t.redOf_setBlack⟩
  | case3 fuel t fd fk fs rest =>
    intro _ _ _
    exact ⟨(plug t (⟨fd, false, fk, fs⟩ :: rest)).setBlack, rfl,
      by simp [RBTree.inorder_setBlack, inorder_plug], RBTree.redOf_setBlack _⟩
  | case4 fuel x d k s =>
    intro _ hr _
    have hcontra := hr ⟨d, true, k, s⟩ (by simp)
    simp at hcontra
  | case5 fuel t fd fk fs gr gk gs rest2 hsib ih =>
    intro hlen hr ht
    obtain ⟨u, hu, hio, hred⟩ :=
      ih (by simp at hlen ⊢; omega) (rootOK_tail (rootOK_tail hr)) (plugF_ne_nil _ _)
    refine ⟨u, by simp [fixInsertGo, hsib, hu], ?_, hred⟩
    rw [hio]
    cases fd <;>
      simp [plugF, ctxL, ctxR, RBTree.inorder, RBTree.inorder_setBlack, List.append_assoc]
  | case6 fuel fk fs gr gk gs rest2 hsib t ih =>
    intro hlen hr ht
    obtain ⟨u, hu, hio, hred⟩ :=
      ih (by simp at hlen ⊢; omega) (rootOK_swap (g := ⟨.L, gr, gk, gs⟩) hr _ _ _) ht
    refine ⟨u, by simp [fixInsertGo, hsib, hu], ?_, hred⟩
    rw [hio]
    simp [ctxL, ctxR, RBTree.inorder, List.append_assoc]
  | case7 fuel fk fs gr gk gs rest2 hsib =>
    intro _ _ ht
    exact absurd rfl ht
  | case8 fuel fk fs gr gk gs rest2 hsib red tk tl trt ih =>
    intro hlen hr ht
    obtain ⟨u, hu, hio, hred⟩ :=
      ih (by simp at hlen ⊢; omega) (rootOK_swap (g := ⟨.L, gr, gk, gs⟩) hr _ _ _) (by simp)
    refine ⟨u, by simp [fixInsertGo, hsib, hu], ?_, hred⟩
    rw [hio]
    simp [ctxL, ctxR, RBTree.inorder, List.append_assoc]
  | case9 fuel t fd fk fs gr gk gs rest2 hsib ih =>
    intro hlen hr ht
    obtain ⟨u, hu, hio, hred⟩ :=
      ih (by simp at hlen ⊢; omega) (rootOK_tail (rootOK_tail hr)) (plugF_ne_nil _ _)
    refine ⟨u, by simp [fixInsertGo, hsib, hu], ?_, hred⟩
    rw [hio]
    cases fd <;>
      simp [plugF, ctxL, ctxR, RBTree.inorder, RBTree.inorder_setBlack, List.append_assoc]
  | case10 fuel fk fs gr gk gs rest2 hsib t ih =>
    intro hlen hr ht
    obtain ⟨u, hu, hio, hred⟩ :=
      ih (by simp at hlen ⊢; omega) (rootOK_swap (g := ⟨.R, gr, gk, gs⟩) hr _ _ _) ht
    refine ⟨u, by simp [fixInsertGo, hsib, hu], ?_, hred⟩
    rw [hio]
    simp [ctxL, ctxR, RBTree.inorder, List.append_assoc]
  | case11 fuel fk fs gr gk gs rest2 hsib =>
    intro _ _ ht
    exact absurd rfl ht
  | case12 fuel fk fs gr gk gs rest2 hsib red tk tl trt ih =>
    intro hlen hr ht
    obtain ⟨u, hu, hio, hred⟩ :=
      ih (by simp at hlen ⊢; omega) (rootOK_swap (g := ⟨.R, gr, gk, gs⟩) hr _ _ _) (by simp)
    refine ⟨u, by simp [fixInsertGo, hsib, hu], ?_, hred⟩
    rw [hio]
    simp [ctxL, ctxR, RBTree.inorder, List.append_assoc]

theorem fixInsert_ok {α : Type} (t : RBTree α) (ctx : List (Frame α))
    (hr : RootOK ctx) (ht : t ≠ .nil) :
    ∃ u, fixInsert t ctx = .ok u ∧
      u.inorder = ctxL ctx ++ t.inorder ++ ctxR ctx ∧ u.redOf = false :=
  fixInsertGo_ok (ctx.length + 1) t ctx (by omega) hr ht

theorem RBTree.inorder_eq_nil {α : Type} (t : RBTree α) : t.inorder = [] ↔ t = .nil := by
  cases t <;> simp [RBTree.inorder]

theorem BST_iff_sorted {α : Type} [LinearOrder α] :
    ∀ t : RBTree α, BST t ↔ t.inorder.Sorted (· < ·)
  | .nil => by simp [BST, RBTree.inorder, List.Sorted]
  | .node r k l rt => by
    have ihl := BST_iff_sorted l
    have ihr := BST_iff_sorted rt
    simp only [BST, RBTree.inorder, List.Sorted] at *
    rw [List.pairwise_append]
    simp only [List.pairwise_cons]
    constructor
    · rintro ⟨hl, hr, bl, br⟩
      refine ⟨ihl.mp bl, ⟨hr, ihr.mp br⟩, ?_⟩
      intro a ha b hb
      rcases List.mem_cons.mp hb with rfl | hb
      · exact hl a ha
      · exact lt_trans (hl a ha) (hr b hb)
    · rintro ⟨pl, ⟨hk, pr⟩, hcross⟩
      exact ⟨fun a ha => hcross a ha k (List.mem_cons_self _ _), hk, ihl.mpr pl, ihr.mpr pr⟩

theorem descend_none_iff {α : Type} [LinearOrder α] :
    ∀ (t : RBTree α) (k : α) (acc : List (Frame α)), BST t →
      (descend t k acc = none ↔ k ∈ t.inorder)
  | .nil, k, acc, _ => by simp [descend, RBTree.inorder]
  | .node r x l rt, k, acc, hb => by
    obtain ⟨hl, hr, bl, br⟩ := hb
    by_cases hkx : k = x
    · simp [descend, hkx, RBTree.inorder]
    · by_cases hlt : k < x
      · simp only [descend, if_neg hkx, if_pos hlt]
        rw [descend_none_iff l k _ bl]
        simp only [RBTree.inorder, List.mem_append, List.mem_cons]
        constructor
        · exact fun h => Or.inl h
        · rintro (h | hEq | h)
          · exact h
          · exact absurd hEq hkx
          · exact absurd hlt (lt_asymm (hr k h))
      · simp only [descend, if_neg hkx, if_neg hlt]
        rw [descend_none_iff rt k _ br]
        simp only [RBTree.inorder, List.mem_append, List.mem_cons]
        constructor
        · exact fun h => Or.inr (Or.inr h)
        · rintro (h | hEq | h)
          · exact absurd hlt (by simp [hl k h])
          · exact absurd hEq hkx
          · exact h

theorem descend_some_spec {α : Type} [LinearOrder α] :
    ∀ (t : RBTree α) (k : α) (acc ctx : List (Frame α)), BST t →
      descend t k acc = some ctx →
      ∃ l1 l2, t.inorder = l1 ++ l2 ∧ (∀ x ∈ l1, x < k) ∧ (∀ x ∈ l2, k < x) ∧
        ctxL ctx = ctxL acc ++ l1 ∧ ctxR ctx = l2 ++ ctxR acc
  | .nil, k, acc, ctx, _, h => by
    simp only [descend, Option.some.injEq] at h
    exact ⟨[], [], by simp [RBTree.inorder], by simp, by simp, by simp [← h], by simp [← h]⟩
  | .node r x l rt, k, acc, ctx, hb, h => by
    obtain ⟨hl, hr, bl, br⟩ := hb
    by_cases hkx : k = x
    · simp [descend, hkx] at h
    · by_cases hlt : k < x
      · simp only [descend, if_neg hkx, if_pos hlt] at h
        obtain ⟨l1, l2, hio, h1, h2, hcl, hcr⟩ := descend_some_spec l k _ ctx bl h
        refine ⟨l1, l2 ++ x :: rt.inorder, ?_, h1, ?_, ?_, ?_⟩
        · simp [RBTree.inorder, hio, List.append_assoc]
        · intro y hy
          rcases List.mem_append.mp hy with hy | hy
          · exact h2 y hy
          · rcases List.mem_cons.mp hy with rfl | hy
            · exact hlt
            · exact lt_trans hlt (hr y hy)
        · simpa [ctxL] using hcl
        · rw [hcr]; simp [ctxR, List.append_assoc]
      · have hgt : x < k := lt_of_le_of_ne (not_lt.mp hlt) (Ne.symm hkx)
        simp only [descend, if_neg hkx, if_neg hlt] at h
        obtain ⟨l1, l2, hio, h1, h2, hcl, hcr⟩ := descend_some_spec rt k _ ctx br h
        refine ⟨l.inorder ++ x :: l1, l2, ?_, ?_, h2, ?_, ?_⟩
        · simp [RBTree.inorder, hio, List.append_assoc]
        · intro y hy
          rcases List.mem_append.mp hy with hy | hy
          · exact lt_trans (hl y hy) hgt
          · rcases List.mem_cons.mp hy with rfl | hy
            · exact hgt
            · exact h1 y hy
        · rw [hcl]; simp [ctxL, List.append_assoc]
        · simpa [ctxR] using hcr

theorem descend_frames {α : Type} [LinearOrder α] :
    ∀ (t : RBTree α) (k : α) (acc ctx : List (Frame α)), descend t k acc = some ctx →
      ctx = acc ∨ ∃ fs f, ctx = fs ++ f :: acc ∧ f.red = t.redOf
  | .nil, k, acc, ctx, h => by
    simp only [descend, Option.some.injEq] at h
    exact Or.inl h.symm
  | .node r x l rt, k, acc, ctx, h => by
    by_cases hkx : k = x
    · simp [descend, hkx] at h
    · by_cases hlt : k < x
      · simp only [descend, if_neg hkx, if_pos hlt] at h
        rcases descend_frames l k _ ctx h with hc | ⟨fs, f, hc, hf⟩
        · exact Or.inr ⟨[], ⟨.L, r, x, rt⟩, by simp [hc], rfl⟩
        · exact Or.inr ⟨fs ++ [f], ⟨.L, r, x, rt⟩, by simp [hc], rfl⟩
      · simp only [descend, if_neg hkx, if_neg hlt] at h
        rcases descend_frames rt k _ ctx h with hc | ⟨fs, f, hc, hf⟩
        · exact Or.inr ⟨[], ⟨.R, r, x, l⟩, by simp [hc], rfl⟩
        · exact Or.inr ⟨fs ++ [f], ⟨.R, r, x, l⟩, by simp [hc], rfl⟩

theorem descend_rootOK {α : Type} [LinearOrder α] {t : RBTree α} {k : α}
    {ctx : List (Frame α)} (hred : t.redOf = false) (h : descend t k [] = some ctx) :
    RootOK ctx := by
  rcases descend_frames t k [] ctx h with rfl | ⟨fs, f, rfl, hf⟩
  · intro f hf; simp at hf
  · intro g hg
    rw [show fs ++ f :: ([] : List (Frame α)) = fs ++ [f] by simp, List.getLast?_concat] at hg
    cases hg
    rw [hf, hred]

theorem MTInv.empty {α : Type} [LinearOrder α] : MTInv (MemTable.empty (α := α)) := by
  refine ⟨by simp [MemTable.empty, RBTree.inorder, List.Sorted], rfl, rfl⟩

theorem MemTable.insert_spec {α : Type} [LinearOrder α] (m : MemTable α) (k : α)
    (hm : MTInv m) :
    ∃ b m2, m.insert k = .ok (b, m2) ∧ MTInv m2 ∧
      (b = true ↔ k ∉ m.root.inorder) ∧
      (∀ x, x ∈ m2.root.inorder ↔ x ∈ m.root.inorder ∨ x = k) ∧
      (k ∈ m.root.inorder → m2 = m) ∧
      (k ∉ m.root.inorder → m2.elements = m.elements + 1) := by
  obtain ⟨hs, hred, hcount⟩ := hm
  by_cases h0 : m.elements = 0
  · have hnil : m.root.inorder = [] := by
      have := hcount.symm.trans h0
      exact List.length_eq_zero.mp this
    refine ⟨true, ⟨.node false k .nil .nil, 1⟩, ?_, ?_, ?_, ?_, ?_, ?_⟩
    · simp [MemTable.insert, h0]
    · exact ⟨by simp [RBTree.inorder, List.Sorted], rfl, by simp [RBTree.inorder]⟩
    · simp [hnil]
    · simp [RBTree.inorder, hnil]
    · simp [hnil]
    · simp [h0]
  · rcases hdes : descend m.root k [] with _ | ctx
    · have hkmem : k ∈ m.root.inorder :=
        (descend_none_iff m.root k [] ((BST_iff_sorted m.root).mpr hs)).mp hdes
      refine ⟨false, m, ?_, ⟨hs, hred, hcount⟩, by simp [hkmem], ?_, fun _ => rfl, ?_⟩
      · simp [MemTable.insert, h0, hdes]
      · intro x
        constructor
        · exact Or.inl
        · rintro (hx | rfl)
          · exact hx
          · exact hkmem
      · intro hk; exact absurd hkmem hk
    · have hbst : BST m.root := (BST_iff_sorted m.root).mpr hs
      have hknot : k ∉ m.root.inorder := by
        intro hk
        rw [← descend_none_iff m.root k [] hbst] at hk
        simp [hk] at hdes
      obtain ⟨l1, l2, hio, h1, h2, hcl, hcr⟩ := descend_some_spec m.root k [] ctx hbst hdes
      obtain ⟨u, hu, huio, hured⟩ :=
        fixInsert_ok (.node true k .nil .nil) ctx (descend_rootOK hred hdes) (by simp)
    -- the new in-order list
      have hmio : u.inorder = l1 ++ k :: l2 := by
        rw [huio, hcl, hcr]
        simp [ctxL, ctxR, RBTree.inorder]
      have hsorted2 : (l1 ++ k :: l2).Sorted (· < ·) := by
        rw [hio] at hs
        rw [List.Sorted, List.pairwise_append] at hs ⊢
        obtain ⟨p1, p2, pc⟩ := hs
        refine ⟨p1, ?_, ?_⟩
        · rw [List.pairwise_cons]
          exact ⟨h2, p2⟩
        · intro a ha b hb
          rcases List.mem_cons.mp hb with rfl | hb
          · exact h1 a ha
          · exact lt_trans (h1 a ha) (h2 b hb)
      refine ⟨true, ⟨u, m.elements + 1⟩, ?_, ⟨by simpa [hmio] using hsorted2, hured, ?_⟩,
        by simp [hknot], ?_, fun hk => absurd hk hknot, fun _ => rfl⟩
      · simp [MemTable.insert, h0, hdes, hu, Except.map]
      · simp only [hmio, hcount, hio, List.length_append, List.length_cons]
        omega
      · intro x
        rw [hmio, hio]
        simp only [List.mem_append, List.mem_cons]
        constructor
        · rintro (hx | rfl | hx)
          · exact Or.inl (Or.inl hx)
          · exact Or.inr rfl
          · exact Or.inl (Or.inr hx)
        · rintro ((hx | hx) | rfl)
          · exact Or.inl hx
          · exact Or.inr (Or.inr hx)
          · exact Or.inr (Or.inl rfl)

theorem RBTree.get_mem {α : Type} [LinearOrder α] :
    ∀ (t : RBTree α), BST t → ∀ k : α, (t.get k).isSome = true ↔ k ∈ t.inorder
  | .nil, _, k => by simp [RBTree.get, RBTree.inorder]
  | .node r x l rt, hb, k => by
    obtain ⟨hl, hr, bl, br⟩ := hb
    by_cases hkx : k = x
    · simp [RBTree.get, hkx, RBTree.inorder]
    · by_cases hlt : k < x
      · simp only [RBTree.get, if_neg hkx, if_pos hlt]
        rw [RBTree.get_mem l bl k]
        simp only [RBTree.inorder, List.mem_append, List.mem_cons]
        constructor
        · exact fun h => Or.inl h
        · rintro (h | hEq | h)
          · exact h
          · exact absurd hEq hkx
          · exact absurd hlt (lt_asymm (hr k h))
      · simp only [RBTree.get, if_neg hkx, if_neg hlt]
        rw [RBTree.get_mem rt br k]
        simp only [RBTree.inorder, List.mem_append, List.mem_cons]
        constructor
        · exact fun h => Or.inr (Or.inr h)
        · rintro (h | hEq | h)
          · exact absurd hlt (by simp [hl k h])
          · exact absurd hEq hkx
          · exact h

theorem MemTable.mem_iff {α : Type} [LinearOrder α] (m : MemTable α) (hm : MTInv m) (k : α) :
    m.mem k = true ↔ k ∈ m.root.inorder :=
  RBTree.get_mem m.root ((BST_iff_sorted m.root).mpr hm.1) k

theorem rangeLookupTraverse_eq_filter {α : Type} [LinearOrder α] :
    ∀ (t : RBTree α), BST t → ∀ lo hi : α,
      rangeLookupTraverse t lo hi = t.inorder.filter (fun k => decide (lo ≤ k ∧ k ≤ hi))
  | .nil, _, lo, hi => by simp [rangeLookupTraverse, RBTree.inorder]
  | .node r x l rt, hb, lo, hi => by
    obtain ⟨hl, hr, bl, br⟩ := hb
    have hleft : (if lo < x then rangeLookupTraverse l lo hi else []) =
        l.inorder.filter (fun k => decide (lo ≤ k ∧ k ≤ hi)) := by
      by_cases hx : lo < x
      · rw [if_pos hx, rangeLookupTraverse_eq_filter l bl lo hi]
      · rw [if_neg hx, eq_comm]
        rw [List.filter_eq_nil_iff]
        intro a ha
        have hax : a < lo := lt_of_lt_of_le (hl a ha) (not_lt.mp hx)
        simp [not_le.mpr hax]
    have hright : (if x < hi then rangeLookupTraverse rt lo hi else []) =
        rt.inorder.filter (fun k => decide (lo ≤ k ∧ k ≤ hi)) := by
      by_cases hx : x < hi
      · rw [if_pos hx, rangeLookupTraverse_eq_filter rt br lo hi]
      · rw [if_neg hx, eq_comm]
        rw [List.filter_eq_nil_iff]
        intro a ha
        have hax : hi < a := lt_of_le_of_lt (not_lt.mp hx) (hr a ha)
        simp [not_le.mpr hax]
    show (if lo < x then rangeLookupTraverse l lo hi else []) ++ _ ++ _ = _
    rw [hleft, hright, RBTree.inorder, List.filter_append, List.filter_cons]
    by_cases hmid : lo ≤ x ∧ x ≤ hi
    · rw [if_pos hmid]
      simp [hmid]
    · rw [if_neg hmid]
      simp [hmid]

theorem foldlM_insert_spec {α : Type} [LinearOrder α] :
    ∀ (ks : List α) (m : MemTable α), MTInv m →
      ∃ m2, ks.foldlM (fun m k => (m.insert k).map Prod.snd) m = .ok m2 ∧ MTInv m2 ∧
        (∀ x, x ∈ m2.root.inorder ↔ x ∈ m.root.inorder ∨ x ∈ ks)
  | [], m, hm => ⟨m, rfl, hm, by simp⟩
  | k :: ks, m, hm => by
    obtain ⟨b, m1, hins, hm1, _, hmem1, _, _⟩ := m.insert_spec k hm
    obtain ⟨m2, hfold, hm2, hmem2⟩ := foldlM_insert_spec ks m1 hm1
    refine ⟨m2, ?_, hm2, ?_⟩
    · rw [List.foldlM_cons, hins]
      simpa [Except.map] using hfold
    · intro x
      rw [hmem2 x, hmem1 x]
      simp only [List.mem_cons]
      tauto

/-- C4: for every sequence of memtable insert calls, `insert(key)` returns true
if and only if the key was not already in the set and the set contains the key
after the call, and a full in-order iteration yields every inserted key exactly
once, in strictly increasing lexicographic byte order. -/
theorem C4_memtable_insert_iteration (ks : List Bytes) :
    ∃ m, insertAll ks = .ok m ∧
      m.in_order.Sorted (· < ·) ∧
      (∀ x, x ∈ m.in_order ↔ x ∈ ks) ∧
      (∀ k, ∃ b m2, m.insert k = .ok (b, m2) ∧
        (b = true ↔ k ∉ m.in_order) ∧ k ∈ m2.in_order) := by
  obtain ⟨m, hfold, hm, hmem⟩ := foldlM_insert_spec ks MemTable.empty MTInv.empty
  refine ⟨m, hfold, hm.1, ?_, ?_⟩
  · intro x
    rw [MemTable.in_order, hmem x]
    simp [MemTable.empty, RBTree.inorder]
  · intro k
    obtain ⟨b, m2, hins, _, hb, hmem2, _, _⟩ := m.insert_spec k hm
    exact ⟨b, m2, hins, hb, (hmem2 k).mpr (Or.inr rfl)⟩

/-- C5: for every memtable state (any state with the sorted-tree invariant all
reachable states satisfy) and all bounds, `range_lookup(lo, hi)` yields exactly
the stored keys `k` with `lo ≤ k ≤ hi` in ascending lexicographic byte order
(the in-order filter), and yields the empty result whenever `lo > hi`. -/
theorem C5_memtable_range_lookup (m : MemTable Bytes) (hm : MTInv m) (lo hi : Bytes) :
    m.range_lookup lo hi = m.in_order.filter (fun k => decide (lo ≤ k ∧ k ≤ hi)) ∧
      (hi < lo → m.range_lookup lo hi = []) := by
  have hb : BST m.root := (BST_iff_sorted m.root).mpr hm.1
  have h1 := rangeLookupTraverse_eq_filter m.root hb lo hi
  refine ⟨h1, fun hlh => ?_⟩
  rw [MemTable.range_lookup, h1, List.filter_eq_nil_iff]
  intro a ha
  simp only [decide_eq_true_eq, not_and]
  intro h2 h3
  exact absurd (le_trans h2 h3) (not_le.mpr hlh)

/-- Witness for C5 at a concrete state and bounds. -/
theorem C5_memtable_range_lookup_witness :
    MTInv (⟨.node false [5] .nil .nil, 1⟩ : MemTable Bytes) ∧
      ((⟨.node false [5] .nil .nil, 1⟩ : MemTable Bytes).range_lookup [0] [9] =
          (⟨.node false [5] .nil .nil, 1⟩ : MemTable Bytes).in_order.filter
            (fun k => decide ([0] ≤ k ∧ k ≤ [9])) ∧
        (([9] : Bytes) < [0] →
          (⟨.node false [5] .nil .nil, 1⟩ : MemTable Bytes).range_lookup [0] [9] = [])) :=
  have hA : MTInv (⟨.node false [5] .nil .nil, 1⟩ : MemTable Bytes) :=
    ⟨by simp [RBTree.inorder, List.Sorted], rfl, rfl⟩
  ⟨hA, C5_memtable_range_lookup _ hA [0] [9]⟩

/-- C10 counterexample: removing the root of the reachable three-key memtable
built by inserting [2], [1], [3] targets a node with two non-NIL children, yet
`remove` returns normally (`True`) because the successor is the right child
itself — refuting the claim that `remove` only returns normally when the target
node has at most one non-NIL child. -/
theorem C10_remove_counterexample :
    (insertAll [[2], [1], [3]] : Except PyErr (MemTable Bytes)).map (fun m => m.root) =
      .ok (.node false [2] (.node true [1] .nil .nil) (.node true [3] .nil .nil)) ∧
    ((⟨.node false [2] (.node true [1] .nil .nil) (.node true [3] .nil .nil), 3⟩ :
        MemTable Bytes).remove [2]).map Prod.fst = .ok true := by decide

/-- C10 amended: `node_successor` reads the never-defined variable `current`,
so `remove` raises `NameError` exactly when it reaches a node with two non-NIL
children whose right child has a non-NIL left child (the successor search must
descend), as in the reachable four-key state below; when the right child has no
left child the key is taken from the right child and `remove` returns normally
even with two non-NIL children. -/
theorem C10_remove_name_error :
    (insertAll [[2], [1], [4], [3]] : Except PyErr (MemTable Bytes)).map (fun m => m.root) =
      .ok (.node false [2] (.node false [1] .nil .nil)
        (.node false [4] (.node true [3] .nil .nil) .nil)) ∧
    ((⟨.node false [2] (.node false [1] .nil .nil)
        (.node false [4] (.node true [3] .nil .nil) .nil), 4⟩ :
        MemTable Bytes).remove [2]) = .error .nameError ∧
    ((⟨.node false [2] (.node true [1] .nil .nil) (.node true [3] .nil .nil), 3⟩ :
        MemTable Bytes).remove [2]).map Prod.fst = .ok true := by decide

/-- C3: the claim says recovery of a WAL of length L yields exactly ⌊L/32⌋ keys
with the trailing partial record ignored; the code instead inserts the short
trailing slice too.  For the 33-byte WAL below, recovery yields 2 keys —
⌈33/32⌉, not ⌊33/32⌋ = 1 — including the 1-byte partial record [99]. -/
theorem C3_wal_recovery_keeps_partial_record :
    (build_memtable_from_WAL (List.range 32 ++ [99])).map
        (fun m => (m.elements, m.root.inorder)) =
      .ok (2, [List.range 32, [99]]) ∧
    (List.range 32 ++ [99]).length % 32 = 1 ∧
    (List.range 32 ++ [99]).length / 32 = 1 := by decide

/-- C2: the claim says the index reader's range lookup returns every stored key
in [lo, hi], including a key equal to hi when it is the last key of a file; in
the code the upper binary search runs over [0, N-1] instead of [0, N], so the
last key of a file is dropped whenever it lies inside the bounds.  For the
sorted 2-key file below with lo the first and hi the second key, the lookup
returns only the first key although both match. -/
theorem C2_range_lookup_drops_last_key :
    IndexReader.range_lookup 2 [[List.replicate 32 1, List.replicate 32 2]]
        (List.replicate 32 1) (List.replicate 32 2) = [List.replicate 32 1] ∧
      (List.replicate 32 1 : Bytes) < List.replicate 32 2 ∧
      ([List.replicate 32 1, List.replicate 32 2].filter
          (fun k => decide ((List.replicate 32 1 : Bytes) ≤ k ∧ k ≤ List.replicate 32 2))) =
        [List.replicate 32 1, List.replicate 32 2] := by decide

/-- C9: the claim says a fetch-prefixes request with partition outside 1..P
gets HTTP 400 and no partition's data; the handlers perform no validation, so
partition = 0 hits Python index -1 and serves the LAST partition's data with
status 200, and partition = P + 1 = 5 raises an uncaught IndexError (HTTP 500),
never a 400. -/
theorem C9_partition_validation_missing :
    get_memtable_hash_prefixes serverC9 0 = .ok [7, 7, 7, 7] ∧
    get_memtable_hash_prefixes serverC9 5 = .error .indexError ∧
    get_idx_hash_prefixes specConsts serverC9 0 = .ok [9, 9, 9, 9] ∧
    get_idx_hash_prefixes specConsts serverC9 5 = .error .indexError := by decide

/-- C1: the claim says a flush writes the first N keys, truncates the WAL and
clears the memtable, so that after N + 1 ingests the memtable holds 1 key and
`idx_001.bin` holds N keys.  The handler never clears the memtable: with N = 2,
after 3 ingests into internal partition 0 all three requests succeed, the WAL
is empty, but the memtable holds 3 keys (not 1) and the flush re-triggered,
writing a second overlapping index file of 3 keys; both land in directory
`partition0` while the partition's reader serves directory `partition1`, which
stays empty. -/
theorem C1_flush_never_clears_memtable :
    c1Run.map (fun p => p.1) = .ok (.ok200, .ok200, .ok200) ∧
    c1Run.map (fun p => p.2.memtables.map (·.elements)) = .ok [3, 0, 0, 0] ∧
    c1Run.map (fun p => p.2.walFiles 0) = .ok [] ∧
    c1Run.map (fun p => (p.2.idxDirs 0).map List.length) = .ok [2, 3] ∧
    c1Run.map (fun p => (p.2.idxDirs 1).map List.length) = .ok [] := by decide

theorem bsearchContainsGo_spec {α : Type} [LinearOrder α] (ks : List α) (key : α)
    (hs : ks.Sorted (· < ·)) :
    ∀ (fuel : Nat) (low high : Int), (high + 1 - low).toNat ≤ fuel →
      0 ≤ low → high < (ks.length : Int) →
      (bsearchContainsGo ks key fuel low high = true ↔
        ∃ (i : Nat) (hi : i < ks.length), low ≤ (i : Int) ∧ (i : Int) ≤ high ∧
          ks.get ⟨i, hi⟩ = key)
  | 0, low, high, hfuel, hlow, hhigh => by
    simp only [bsearchContainsGo, Bool.false_eq_true, false_iff]
    rintro ⟨i, hi, h1, h2, _⟩
    omega
  | fuel + 1, low, high, hfuel, hlow, hhigh => by
    by_cases hlh : low ≤ high
    · have hml : low ≤ (low + high) / 2 := by omega
      have hmh : (low + high) / 2 ≤ high := by omega
      have hmn : ((low + high) / 2).toNat < ks.length := by omega
      have hget : ks.getD ((low + high) / 2).toNat key = ks.get ⟨((low + high) / 2).toNat, hmn⟩ :=
        List.getD_eq_getElem ks key hmn
      by_cases hkey : key = ks.get ⟨((low + high) / 2).toNat, hmn⟩
      · simp only [bsearchContainsGo, if_pos hlh, hget, if_pos hkey, true_iff]
        exact ⟨((low + high) / 2).toNat, hmn, by omega, by omega, hkey.symm⟩
      · by_cases hklt : key < ks.get ⟨((low + high) / 2).toNat, hmn⟩
        · simp only [bsearchContainsGo, if_pos hlh, hget, if_neg hkey, if_pos hklt]
          rw [bsearchContainsGo_spec ks key hs fuel low ((low + high) / 2 - 1)
            (by omega) hlow (by omega)]
          constructor
          · rintro ⟨i, hi, h1, h2, hk⟩
            exact ⟨i, hi, h1, by omega, hk⟩
          · rintro ⟨i, hi, h1, h2, hk⟩
            refine ⟨i, hi, h1, ?_, hk⟩
            rcases Nat.lt_trichotomy i ((low + high) / 2).toNat with hlt | heq | hgt
            · omega
            · have heq2 : (⟨i, hi⟩ : Fin ks.length) = ⟨((low + high) / 2).toNat, hmn⟩ :=
                Fin.ext heq
              rw [heq2] at hk
              exact absurd hk.symm hkey
            · have hrel := List.Sorted.rel_get_of_lt hs
                (a := ⟨((low + high) / 2).toNat, hmn⟩) (b := ⟨i, hi⟩) hgt
              rw [hk] at hrel
              exact absurd hklt (lt_asymm hrel)
        · have hkgt : ks.get ⟨((low + high) / 2).toNat, hmn⟩ < key :=
            lt_of_le_of_ne (not_lt.mp hklt) (fun hEq => hkey hEq.symm)
          simp only [bsearchContainsGo, if_pos hlh, hget, if_neg hkey, if_neg hklt]
          rw [bsearchContainsGo_spec ks key hs fuel ((low + high) / 2 + 1) high
            (by omega) (by omega) hhigh]
          constructor
          · rintro ⟨i, hi, h1, h2, hk⟩
            exact ⟨i, hi, by omega, h2, hk⟩
          · rintro ⟨i, hi, h1, h2, hk⟩
            refine ⟨i, hi, ?_, h2, hk⟩
            rcases Nat.lt_trichotomy i ((low + high) / 2).toNat with hlt | heq | hgt
            · have hrel := List.Sorted.rel_get_of_lt hs
                (a := ⟨i, hi⟩) (b := ⟨((low + high) / 2).toNat, hmn⟩) hlt
              rw [hk] at hrel
              exact absurd hkgt (lt_asymm hrel)
            · have heq2 : (⟨i, hi⟩ : Fin ks.length) = ⟨((low + high) / 2).toNat, hmn⟩ :=
                Fin.ext heq
              rw [heq2] at hk
              exact absurd hk.symm hkey
            · omega
    · simp only [bsearchContainsGo, if_neg hlh, Bool.false_eq_true, false_iff]
      rintro ⟨i, hi, h1, h2, _⟩
      omega

theorem bsearchContains_mem {α : Type} [LinearOrder α] (ks : List α) (key : α)
    (hs : ks.Sorted (· < ·)) :
    bsearchContains ks key 0 ((ks.length : Int) - 1) = true ↔ key ∈ ks := by
  rw [bsearchContains,
    bsearchContainsGo_spec ks key hs _ 0 _ (by omega) (by omega) (by omega)]
  constructor
  · rintro ⟨i, hi, _, _, hk⟩
    exact hk ▸ List.get_mem ks i hi
  · intro hmem
    obtain ⟨⟨i, hi⟩, hk⟩ := List.mem_iff_get.mp hmem
    exact ⟨i, hi, by omega, by omega, hk⟩

theorem contains_hash_spec {α : Type} [LinearOrder α] (n : Nat) (files : List (List α))
    (key : α) (hwf : DirWF n files) :
    IndexReader.contains_hash n files key = true ↔ ∃ ks ∈ files, key ∈ ks := by
  rw [IndexReader.contains_hash, List.any_eq_true]
  constructor
  · rintro ⟨ks, hks, hp⟩
    obtain ⟨hlen, hsort⟩ := hwf ks hks
    rw [← hlen] at hp
    exact ⟨ks, hks, (bsearchContains_mem ks key hsort).mp hp⟩
  · rintro ⟨ks, hks, hp⟩
    obtain ⟨hlen, hsort⟩ := hwf ks hks
    refine ⟨ks, hks, ?_⟩
    rw [← hlen]
    exact (bsearchContains_mem ks key hsort).mpr hp

theorem pyListIdx_nat {β : Type} (l : List β) (i : Nat) (h : i < l.length) :
    pyListIdx l (i : Int) = .ok (l.get ⟨i, h⟩) := by
  rw [pyListIdx]
  have h0 : ¬((i : Int) < 0) := by omega
  simp only [h0, if_false]
  have h2 : 0 ≤ (i : Int) ∧ ((i : Int)).toNat < l.length := by
    constructor
    · omega
    · simpa using h
  rw [dif_pos h2]
  simp

theorem except_ok_bind {ε β γ : Type} (v : β) (f : β → Except ε γ) :
    ((Except.ok v : Except ε β) >>= f) = f v := rfl

theorem pyListIdx_getD {β : Type} (l : List β) (i : Nat) (d : β) (h : i < l.length) :
    pyListIdx l (i : Int) = .ok (l.getD i d) := by
  rw [pyListIdx_nat l i h]
  rw [List.getD_eq_getElem l d h, List.get_eq_getElem]

/-- C6: for every key already present in the blacklist — in an index file read
by the partition's reader or in the partition's memtable — submitting it again
returns HTTP 400 with body "Bad request: URL is already blacklisted" and leaves
the whole server state (memtables, WAL files, index files) unchanged; a first
submission of an absent key returns 200. -/
theorem C6_duplicate_submission (C : SConsts) (s : ServerState) (h : Bytes)
    (hwf : DirWF C.HASHES_PER_IDX (s.idxDirs (C.PARTITION_NUM (h.headD 0) + 1)))
    (hpart : C.PARTITION_NUM (h.headD 0) < s.memtables.length)
    (hmt : MTInv (s.memtables.getD (C.PARTITION_NUM (h.headD 0)) MemTable.empty)) :
    (((∃ ks ∈ s.idxDirs (C.PARTITION_NUM (h.headD 0) + 1), h ∈ ks) ∨
        h ∈ (s.memtables.getD (C.PARTITION_NUM (h.headD 0)) MemTable.empty).in_order) →
      submit_malicious_url C s h =
        .ok (.bad400 "Bad request: URL is already blacklisted", s)) ∧
    (¬((∃ ks ∈ s.idxDirs (C.PARTITION_NUM (h.headD 0) + 1), h ∈ ks) ∨
        h ∈ (s.memtables.getD (C.PARTITION_NUM (h.headD 0)) MemTable.empty).in_order) →
      (submit_malicious_url C s h).map Prod.fst = .ok .ok200) := by
  constructor
  · intro hpres
    by_cases hc : IndexReader.contains_hash C.HASHES_PER_IDX
        (s.idxDirs (C.PARTITION_NUM (h.headD 0) + 1)) h = true
    · simp only [List.headD_eq_head?] at hc
      simp [submit_malicious_url, hc, pure, Except.pure]
    · have hmem : h ∈ (s.memtables.getD (C.PARTITION_NUM (h.headD 0))
          MemTable.empty).in_order := by
        rcases hpres with hidx | hm
        · exact absurd ((contains_hash_spec _ _ _ hwf).mpr hidx) hc
        · exact hm
      have hmemb : (s.memtables.getD (C.PARTITION_NUM (h.headD 0)) MemTable.empty).mem h =
          true := (MemTable.mem_iff _ hmt h).mpr hmem
      have hpy := pyListIdx_getD s.memtables (C.PARTITION_NUM (h.headD 0))
        MemTable.empty hpart
      simp only [List.headD_eq_head?, List.getD_eq_getElem?_getD] at hc hmemb hpy
      simp [submit_malicious_url, hc, hpy, hmemb, except_ok_bind, pure, Except.pure, Except.bind]
  · intro habs
    have hc : IndexReader.contains_hash C.HASHES_PER_IDX
        (s.idxDirs (C.PARTITION_NUM (h.headD 0) + 1)) h = false :=
      Bool.eq_false_iff.mpr
        (fun hx => habs (Or.inl ((contains_hash_spec _ _ _ hwf).mp hx)))
    have hmm : (s.memtables.getD (C.PARTITION_NUM (h.headD 0)) MemTable.empty).mem h =
        false :=
      Bool.eq_false_iff.mpr (fun hx => habs (Or.inr ((MemTable.mem_iff _ hmt h).mp hx)))
    obtain ⟨b, m2, hins, _, _, _, _, _⟩ :=
      MemTable.insert_spec (s.memtables.getD (C.PARTITION_NUM (h.headD 0)) MemTable.empty)
        h hmt
    have hpy := pyListIdx_getD s.memtables (C.PARTITION_NUM (h.headD 0))
      MemTable.empty hpart
    simp only [List.headD_eq_head?, List.getD_eq_getElem?_getD] at hc hmm hins hpy
    by_cases hflush : C.HASHES_PER_IDX ≤ m2.elements
    · simp [submit_malicious_url, hc, hpy, hmm, hins, hflush,
        except_ok_bind, pure, Except.pure, Except.bind, Except.map]
    · simp [submit_malicious_url, hc, hpy, hmm, hins, hflush,
        except_ok_bind, pure, Except.pure, Except.bind, Except.map]

/-- Witness for C6 at a concrete fresh server and key. -/
theorem C6_duplicate_submission_witness :
    (DirWF toyConsts.HASHES_PER_IDX
        (serverStart.idxDirs (toyConsts.PARTITION_NUM (keyA.headD 0) + 1)) ∧
      toyConsts.PARTITION_NUM (keyA.headD 0) < serverStart.memtables.length ∧
      MTInv (serverStart.memtables.getD (toyConsts.PARTITION_NUM (keyA.headD 0))
        MemTable.empty)) ∧
    ((((∃ ks ∈ serverStart.idxDirs (toyConsts.PARTITION_NUM (keyA.headD 0) + 1),
          keyA ∈ ks) ∨
        keyA ∈ (serverStart.memtables.getD (toyConsts.PARTITION_NUM (keyA.headD 0))
          MemTable.empty).in_order) →
      submit_malicious_url toyConsts serverStart keyA =
        .ok (.bad400 "Bad request: URL is already blacklisted", serverStart)) ∧
    (¬((∃ ks ∈ serverStart.idxDirs (toyConsts.PARTITION_NUM (keyA.headD 0) + 1),
          keyA ∈ ks) ∨
        keyA ∈ (serverStart.memtables.getD (toyConsts.PARTITION_NUM (keyA.headD 0))
          MemTable.empty).in_order) →
      (submit_malicious_url toyConsts serverStart keyA).map Prod.fst = .ok .ok200)) := by
  have h1 : DirWF toyConsts.HASHES_PER_IDX
      (serverStart.idxDirs (toyConsts.PARTITION_NUM (keyA.headD 0) + 1)) := by
    intro ks hks
    simp [serverStart] at hks
  have h2 : toyConsts.PARTITION_NUM (keyA.headD 0) < serverStart.memtables.length := by
    decide
  have h3 : MTInv (serverStart.memtables.getD (toyConsts.PARTITION_NUM (keyA.headD 0))
      MemTable.empty) := MTInv.empty
  exact ⟨⟨h1, h2, h3⟩, C6_duplicate_submission toyConsts serverStart keyA h1 h2 h3⟩

theorem List.set_true_getD_mono (arr : List Bool) (i j : Nat)
    (h : arr.getD j false = true) : (arr.set i true).getD j false = true := by
  by_cases hij : i = j
  · subst hij
    by_cases hlen : i < arr.length
    · rw [List.getD_eq_getElem?_getD, List.getElem?_set_self (by simpa using hlen)]
      simp
    · rw [List.set_eq_of_length_le (by omega)]
      exact h
  · rw [List.getD_eq_getElem?_getD, List.getElem?_set_ne hij]
    rw [List.getD_eq_getElem?_getD] at h
    exact h

theorem foldl_set_length (f : Nat → Nat) :
    ∀ (l : List Nat) (arr : List Bool),
      (l.foldl (fun a i => a.set (f i) true) arr).length = arr.length
  | [], arr => rfl
  | j :: l, arr => by
    simp only [List.foldl_cons]
    rw [foldl_set_length f l (arr.set (f j) true), List.length_set]

theorem foldl_set_mono (f : Nat → Nat) :
    ∀ (l : List Nat) (arr : List Bool) (j : Nat), arr.getD j false = true →
      (l.foldl (fun a i => a.set (f i) true) arr).getD j false = true
  | [], arr, j, h => h
  | i :: l, arr, j, h => by
    simp only [List.foldl_cons]
    exact foldl_set_mono f l _ j (List.set_true_getD_mono arr (f i) j h)

theorem foldl_set_mem (f : Nat → Nat) :
    ∀ (l : List Nat) (arr : List Bool), (∀ i ∈ l, f i < arr.length) →
      ∀ i ∈ l, (l.foldl (fun a i => a.set (f i) true) arr).getD (f i) false = true
  | [], arr, _, i, hi => absurd hi (List.not_mem_nil i)
  | j :: l, arr, hbound, i, hi => by
    simp only [List.foldl_cons]
    rcases List.mem_cons.mp hi with rfl | hi2
    · apply foldl_set_mono
      rw [List.getD_eq_getElem?_getD,
        List.getElem?_set_self (by simpa using hbound i hi)]
      simp
    · apply foldl_set_mem f l (arr.set (f j) true)
        (fun x hx => by rw [List.length_set]; exact hbound x (List.mem_cons_of_mem j hx))
        i hi2

theorem BloomFilter.add_length (mmh3hash : Bytes → Nat → Int) (bf : BloomFilter)
    (key : Bytes) :
    (bf.add mmh3hash key).bit_array.length = bf.bit_array.length ∧
    (bf.add mmh3hash key).hash_count = bf.hash_count :=
  ⟨foldl_set_length _ (List.range bf.hash_count) bf.bit_array, rfl⟩

theorem BloomFilter.get_digest_congr (mmh3hash : Bytes → Nat → Int) {bf1 bf2 : BloomFilter}
    (h : bf1.bit_array.length = bf2.bit_array.length) (key : Bytes) (seed : Nat) :
    bf1.get_digest mmh3hash key seed = bf2.get_digest mmh3hash key seed := by
  rw [BloomFilter.get_digest, BloomFilter.get_digest, h]

theorem foldl_add_stable (mmh3hash : Bytes → Nat → Int) :
    ∀ (keys : List Bytes) (bf : BloomFilter),
      (keys.foldl (BloomFilter.add mmh3hash) bf).bit_array.length = bf.bit_array.length ∧
      (keys.foldl (BloomFilter.add mmh3hash) bf).hash_count = bf.hash_count
  | [], bf => ⟨rfl, rfl⟩
  | k :: keys, bf => by
    simp only [List.foldl_cons]
    obtain ⟨h1, h2⟩ := foldl_add_stable mmh3hash keys (bf.add mmh3hash k)
    obtain ⟨h3, h4⟩ := BloomFilter.add_length mmh3hash bf k
    exact ⟨h1.trans h3, h2.trans h4⟩

theorem foldl_add_mono (mmh3hash : Bytes → Nat → Int) :
    ∀ (keys : List Bytes) (bf : BloomFilter) (j : Nat),
      bf.bit_array.getD j false = true →
      (keys.foldl (BloomFilter.add mmh3hash) bf).bit_array.getD j false = true
  | [], _, _, h => h
  | k :: keys, bf, j, h => by
    simp only [List.foldl_cons]
    refine foldl_add_mono mmh3hash keys _ j ?_
    rw [BloomFilter.add]
    exact foldl_set_mono _ (List.range bf.hash_count) bf.bit_array j h

/-- C7: for every hash oracle, filter state with a non-empty bit array, and
sequence of `add` calls that includes `add(p)` for a 4-byte prefix `p`,
`check(p)` returns true afterwards: `add` only sets bits and never clears them,
so the filter admits no false negatives. -/
theorem C7_bloom_no_false_negatives (mmh3hash : Bytes → Nat → Int) (bf0 : BloomFilter)
    (keys : List Bytes) (p : Bytes) (hm : 0 < bf0.bit_array.length)
    (hplen : p.length = 4) (hmem : p ∈ keys) :
    BloomFilter.check mmh3hash (keys.foldl (BloomFilter.add mmh3hash) bf0) p = true := by
  induction keys generalizing bf0 with
  | nil => exact absurd hmem (List.not_mem_nil p)
  | cons q rest ih =>
    simp only [List.foldl_cons]
    rcases List.mem_cons.mp hmem with rfl | hmem2
    · -- p is added first; its bits survive the remaining adds
      set bf1 := bf0.add mmh3hash p with hbf1
      obtain ⟨hlen1, hcnt1⟩ := BloomFilter.add_length mmh3hash bf0 p
      obtain ⟨hlenF, hcntF⟩ := foldl_add_stable mmh3hash rest bf1
      rw [BloomFilter.check, List.all_eq_true]
      intro i hi
      rw [List.mem_range] at hi
      rw [hcntF, hcnt1] at hi
      have hdig : (rest.foldl (BloomFilter.add mmh3hash) bf1).get_digest mmh3hash p i =
          bf0.get_digest mmh3hash p i :=
        BloomFilter.get_digest_congr mmh3hash (by rw [hlenF, hlen1]) p i
      rw [hdig]
      apply foldl_add_mono
      rw [hbf1, BloomFilter.add]
      refine foldl_set_mem _ (List.range bf0.hash_count) bf0.bit_array ?_ i ?_
      · intro x _
        rw [BloomFilter.get_digest]
        exact Nat.mod_lt _ hm
      · exact List.mem_range.mpr hi
    · exact ih (bf0.add mmh3hash q)
        ((BloomFilter.add_length mmh3hash bf0 q).1.symm ▸ hm) hmem2

/-- Witness for C7 at a concrete oracle, filter, and key list. -/
theorem C7_bloom_no_false_negatives_witness :
    0 < (⟨2, [false, false, false, false]⟩ : BloomFilter).bit_array.length ∧
      ([1, 2, 3, 4] : Bytes).length = 4 ∧
      ([1, 2, 3, 4] : Bytes) ∈ [([9, 9, 9, 9] : Bytes), [1, 2, 3, 4]] ∧
      BloomFilter.check (fun k s => ((k.headD 0) * 7 + s * 13 : Nat))
        ([([9, 9, 9, 9] : Bytes), [1, 2, 3, 4]].foldl
          (BloomFilter.add (fun k s => ((k.headD 0) * 7 + s * 13 : Nat)))
          ⟨2, [false, false, false, false]⟩) [1, 2, 3, 4] = true :=
  ⟨by decide, by decide, by decide,
    C7_bloom_no_false_negatives (fun k s => ((k.headD 0) * 7 + s * 13 : Nat))
      ⟨2, [false, false, false, false]⟩ [[9, 9, 9, 9], [1, 2, 3, 4]] [1, 2, 3, 4]
      (by decide) (by decide) (by decide)⟩

theorem log_five_fourth_bounds :
    (0.223 : ℝ) < Real.log (5 / 4) ∧ Real.log (5 / 4) < 0.2235 := by
  have habs : |(1 / 5 : ℝ)| < 1 := by
    rw [abs_of_pos (by norm_num : (0:ℝ) < 1 / 5)]
    norm_num
  have h := Real.abs_log_sub_add_sum_range_le habs 5
  rw [abs_of_pos (by norm_num : (0:ℝ) < 1 / 5)] at h
  have hsum : ∑ i ∈ Finset.range 5, ((1 : ℝ) / 5) ^ (i + 1) / ((i : ℝ) + 1) =
      1 / 5 + 1 / 50 + 1 / 375 + 1 / 2500 + 1 / 15625 := by
    simp only [Finset.sum_range_succ, Finset.sum_range_zero]
    norm_num
  have hlog : Real.log (1 - 1 / 5) = -Real.log (5 / 4) := by
    rw [show (1 - 1 / 5 : ℝ) = ((5 : ℝ) / 4)⁻¹ by norm_num, Real.log_inv]
  rw [hsum, hlog] at h
  norm_num at h
  have h2 := abs_le.mp h
  constructor <;> linarith [h2.1, h2.2]

theorem bitarray_size_eq (n : ℕ) :
    BloomFilter.bitarray_size n =
      2 * ((n : ℝ) + 24) * (3 * Real.log 2 + Real.log (5 / 4)) / (Real.log 2) ^ 2 := by
  have hlog100 : Real.log BF_FP_PROBABILITY = -(2 * (3 * Real.log 2 + Real.log (5 / 4))) := by
    rw [BF_FP_PROBABILITY, show ((1 : ℝ) / 100) = (100 : ℝ)⁻¹ by norm_num, Real.log_inv]
    rw [show (100 : ℝ) = (10 : ℝ) ^ 2 by norm_num, Real.log_pow]
    rw [show (10 : ℝ) = 2 ^ 3 * (5 / 4) by norm_num,
      Real.log_mul (by norm_num) (by norm_num), Real.log_pow]
    push_cast
    ring
  rw [BloomFilter.bitarray_size, hlog100]
  ring

theorem bitarray_size_one_bounds :
    (239 : ℝ) < BloomFilter.bitarray_size 1 ∧ BloomFilter.bitarray_size 1 < 240 := by
  obtain ⟨hb1, hb2⟩ := log_five_fourth_bounds
  have l2lo := Real.log_two_gt_d9
  have l2hi := Real.log_two_lt_d9
  have ha0 : (0 : ℝ) < Real.log 2 := by linarith
  have ha2 : (0 : ℝ) < (Real.log 2) ^ 2 := by positivity
  have hsqhi : (Real.log 2) ^ 2 < 0.6931471808 ^ 2 := by nlinarith
  have hsqlo : (0.6931471803 : ℝ) ^ 2 < (Real.log 2) ^ 2 := by nlinarith
  rw [bitarray_size_eq]
  constructor
  · rw [lt_div_iff ha2]
    push_cast
    nlinarith
  · rw [div_lt_iff ha2]
    push_cast
    nlinarith

/-- C8 counterexample: the claim computes the bit-array size as the ceiling of
x = -(n+24)·ln(p)/(ln 2)^2; the code applies Python `int()`, which truncates.
At entry_count = 1 (with the spec's p = 0.01) the real value x lies strictly
between 239 and 240, so the code constructs 239 bits while the claim demands
⌈x⌉ = 240. -/
theorem C8_counterexample :
    BloomFilter.init_array_len 1 = 239 ∧ ⌈BloomFilter.bitarray_size 1⌉ = 240 ∧
      BloomFilter.init_array_len 1 ≠ ⌈BloomFilter.bitarray_size 1⌉ := by
  obtain ⟨h1, h2⟩ := bitarray_size_one_bounds
  have hpos : (0 : ℝ) ≤ BloomFilter.bitarray_size 1 := by linarith
  have hfl : ⌊BloomFilter.bitarray_size 1⌋ = 239 := by
    rw [Int.floor_eq_iff]
    push_cast
    constructor <;> linarith
  have hcl : ⌈BloomFilter.bitarray_size 1⌉ = 240 := by
    rw [Int.ceil_eq_iff]
    push_cast
    constructor <;> linarith
  refine ⟨?_, hcl, ?_⟩
  · rw [BloomFilter.init_array_len, pyInt, if_pos hpos, hfl]
  · rw [BloomFilter.init_array_len, pyInt, if_pos hpos, hfl, hcl]
    norm_num

/-- C8 amended: with floats idealised as reals, the constructed bit-array
length m is the Python `int()` truncation (here the floor) of
x = -(n+24)·ln(p)/(ln 2)^2, characterised by m ≤ x < m + 1 (not the ceiling),
and the hash count is k = max(1, ⌊(x/n)·ln 2⌋) computed from the un-truncated
x rather than from m. -/
theorem C8_bloom_sizing (n : ℕ) (hn : 1 ≤ n) :
    0 ≤ BloomFilter.bitarray_size n ∧
    ((BloomFilter.init_array_len n : ℝ) ≤ BloomFilter.bitarray_size n ∧
      BloomFilter.bitarray_size n < BloomFilter.init_array_len n + 1) ∧
    BloomFilter.init_hash_count n =
      max 1 ⌊BloomFilter.bitarray_size n / n * Real.log 2⌋ := by
  have hlogneg : Real.log BF_FP_PROBABILITY < 0 := by
    rw [BF_FP_PROBABILITY]
    exact Real.log_neg (by norm_num) (by norm_num)
  have hy : (0 : ℝ) ≤ (n : ℝ) + 24 := by positivity
  have hpos : (0 : ℝ) ≤ BloomFilter.bitarray_size n := by
    rw [BloomFilter.bitarray_size]
    apply div_nonneg
    · nlinarith
    · positivity
  refine ⟨hpos, ⟨?_, ?_⟩, ?_⟩
  · rw [BloomFilter.init_array_len, pyInt, if_pos hpos]
    exact Int.floor_le _
  · rw [BloomFilter.init_array_len, pyInt, if_pos hpos]
    push_cast
    exact Int.lt_floor_add_one _
  · rw [BloomFilter.init_hash_count, pyInt,
      if_pos (mul_nonneg (div_nonneg hpos (by positivity))
        (Real.log_nonneg (by norm_num)))]

/-- Witness for the amended C8 at entry_count = 1. -/
theorem C8_bloom_sizing_witness :
    1 ≤ 1 ∧
    (0 ≤ BloomFilter.bitarray_size 1 ∧
    ((BloomFilter.init_array_len 1 : ℝ) ≤ BloomFilter.bitarray_size 1 ∧
      BloomFilter.bitarray_size 1 < BloomFilter.init_array_len 1 + 1) ∧
    BloomFilter.init_hash_count 1 =
      max 1 ⌊BloomFilter.bitarray_size 1 / ((1 : ℕ) : ℝ) * Real.log 2⌋) :=
  ⟨le_refl 1, C8_bloom_sizing 1 (le_refl 1)⟩
